import Mathlib

set_option maxHeartbeats 1000000

/-!
Verification of the Amp debug-log parser of sjarmak/amp-session-manager.

The repository contains two identical copies of a small stateful scanner:
`parse_amp_debug_logs` and `extract_thread_id`, once in
scripts/test/test-debug-log-parsing.py and once in test-amp-debug-parsing.py.
This file embeds those functions shallowly: a log file is a list of raw
lines (an unopenable file is `none`), Python's `json.loads` is modelled by
`json_loads` below (strict JSON, grammar-faithful; the NaN/Infinity
extension of the Python module is omitted since no behaviour here depends
on it), Python dicts are association lists with update-in-place-or-append
insertion, and the exceptions that escape the inner per-line handler are
modelled by `Except`: an `.error` result aborts the scan exactly where the
Python exception leaves the `with` block.
-/

/-- JSON values as returned by Python's `json.loads`: null, booleans,
numbers (carried unnormalized as a decimal mantissa and exponent, value
m * 10^e; the parser never computes with numbers, only stores them),
strings, arrays and objects.  Objects are
association lists; `json.loads` produces them duplicate-free (last
duplicate key wins, first position kept), as Python dicts do. -/
inductive JVal where
  | jnull : JVal
  | jbool : Bool → JVal
  | jnum : Int → Int → JVal
  | jstr : String → JVal
  | jarr : List JVal → JVal
  | jobj : List (String × JVal) → JVal

/-- First-occurrence lookup in an association list (Python `d[k]` /
`d.get(k)`; lists built by `dictInsert` have unique keys). -/
def dictLookup {α : Type} (d : List (String × α)) (k : String) : Option α :=
  match d with
  | [] => none
  | e :: rest => if e.1 = k then some e.2 else dictLookup rest k

/-- Key membership in an association list (Python `k in d`). -/
def dictMember {α : Type} (d : List (String × α)) (k : String) : Bool :=
  match d with
  | [] => false
  | e :: rest => e.1 == k || dictMember rest k

/-- Python `d[k] = v`: replace the value in place if the key is present
(keeping its position), otherwise append at the end. -/
def dictInsert {α : Type} (d : List (String × α)) (k : String) (v : α) :
    List (String × α) :=
  if dictMember d k then d.map (fun e => if e.1 = k then (k, v) else e)
  else d ++ [(k, v)]

/-- Python `d.pop(k)`: remove the entry with key `k` (on the unique-key
lists used here, dropping every entry with that key coincides with
removing the one entry). -/
def dictRemove {α : Type} (d : List (String × α)) (k : String) :
    List (String × α) :=
  d.filter (fun e => e.1 != k)

/-- Python `d.get(k)` with its `None` default, identifying Python `None`
with JSON null. -/
def pyGet (d : List (String × JVal)) (k : String) : JVal :=
  (dictLookup d k).getD JVal.jnull

/-- Python truthiness of a JSON value: `None`, `False`, `0`, `""`, `[]`
and `\x7b\x7d` are falsy, everything else truthy. -/
def truthy : JVal → Bool
  | JVal.jnull => false
  | JVal.jbool b => b
  | JVal.jnum m _ => !(decide (m = 0))
  | JVal.jstr s => s != ""
  | JVal.jarr l => !l.isEmpty
  | JVal.jobj l => !l.isEmpty

/-- JSON whitespace accepted between tokens. -/
def jws (c : Char) : Bool :=
  c == ' ' || c == '\t' || c == '\n' || c == '\r'

/-- Decimal digit test. -/
def isDig (c : Char) : Bool :=
  decide ('0' ≤ c) && decide (c ≤ '9')

/-- Value of a hexadecimal digit, if it is one. -/
def hexVal (c : Char) : Option Nat :=
  if decide ('0' ≤ c) && decide (c ≤ '9') then some (c.toNat - '0'.toNat)
  else if decide ('a' ≤ c) && decide (c ≤ 'f') then some (c.toNat - 'a'.toNat + 10)
  else if decide ('A' ≤ c) && decide (c ≤ 'F') then some (c.toNat - 'A'.toNat + 10)
  else none

/-- Body of a JSON string after the opening quote: returns the decoded
characters and the input remaining after the closing quote.  Handles the
JSON escapes and rejects unescaped control characters, as Python does. -/
def parseStringBody : List Char → Option (List Char × List Char)
  | [] => none
  | '"' :: rest => some ([], rest)
  | '\\' :: 'u' :: h1 :: h2 :: h3 :: h4 :: rest =>
    match hexVal h1, hexVal h2, hexVal h3, hexVal h4 with
    | some a, some b, some c, some d =>
      (parseStringBody rest).map
        (fun r => (Char.ofNat (((a * 16 + b) * 16 + c) * 16 + d) :: r.1, r.2))
    | _, _, _, _ => none
  | '\\' :: e :: rest =>
    match
      (if e == '"' then some '"'
       else if e == '\\' then some '\\'
       else if e == '/' then some '/'
       else if e == 'b' then some (Char.ofNat 8)
       else if e == 'f' then some (Char.ofNat 12)
       else if e == 'n' then some '\n'
       else if e == 'r' then some '\r'
       else if e == 't' then some '\t'
       else none) with
    | some ch => (parseStringBody rest).map (fun r => (ch :: r.1, r.2))
    | none => none
  | c :: rest =>
    if 32 ≤ c.toNat then (parseStringBody rest).map (fun r => (c :: r.1, r.2))
    else none

/-- Numeric value of a digit string. -/
def digitsVal (ds : List Char) : Nat :=
  ds.foldl (fun a c => a * 10 + (c.toNat - 48)) 0

/-- Integer part of a JSON number: `0`, or a nonzero digit followed by
digits (a leading `0` is only ever consumed alone, as in the grammar). -/
def parseIntPart : List Char → Option (Nat × List Char)
  | '0' :: rest => some (0, rest)
  | c :: rest =>
    if isDig c then some (digitsVal (c :: rest.takeWhile isDig), rest.dropWhile isDig)
    else none
  | [] => none

/-- Optional fraction part: value, number of fractional digits, rest. -/
def parseFracPart : List Char → Option (Nat × Nat × List Char)
  | '.' :: rest =>
    match rest.takeWhile isDig with
    | [] => none
    | ds => some (digitsVal ds, ds.length, rest.dropWhile isDig)
  | cs => some (0, 0, cs)

/-- Digits with an optional sign, for the exponent part. -/
def parseSignedDigits : List Char → Option (Int × List Char)
  | '+' :: rest =>
    match rest.takeWhile isDig with
    | [] => none
    | ds => some ((digitsVal ds : Int), rest.dropWhile isDig)
  | '-' :: rest =>
    match rest.takeWhile isDig with
    | [] => none
    | ds => some (-(digitsVal ds : Int), rest.dropWhile isDig)
  | cs =>
    match cs.takeWhile isDig with
    | [] => none
    | ds => some ((digitsVal ds : Int), cs.dropWhile isDig)

/-- Optional exponent part of a JSON number. -/
def parseExpPart : List Char → Option (Int × List Char)
  | 'e' :: rest => parseSignedDigits rest
  | 'E' :: rest => parseSignedDigits rest
  | cs => some (0, cs)

/-- A complete JSON number starting at the current position, returned as
(mantissa, decimal exponent): sign * (intpart * 10^fracdigits + fracpart)
times 10^(exponent - fracdigits). -/
def parseNumber (cs : List Char) : Option ((Int × Int) × List Char) :=
  let signed : Bool × List Char :=
    match cs with
    | '-' :: r => (true, r)
    | _ => (false, cs)
  match parseIntPart signed.2 with
  | none => none
  | some (ip, cs2) =>
    match parseFracPart cs2 with
    | none => none
    | some (fv, fl, cs3) =>
      match parseExpPart cs3 with
      | none => none
      | some (ex, cs4) =>
        let m : Int := (ip : Int) * (10 : Int) ^ fl + (fv : Int)
        some ((if signed.1 then -m else m, ex - (fl : Int)), cs4)

mutual

/-- Recursive-descent JSON value parser, fuel-indexed for termination. -/
def parseVal : Nat → List Char → Option (JVal × List Char)
  | 0, _ => none
  | Nat.succ fuel, cs =>
    match cs.dropWhile jws with
    | 'n' :: 'u' :: 'l' :: 'l' :: rest => some (JVal.jnull, rest)
    | 't' :: 'r' :: 'u' :: 'e' :: rest => some (JVal.jbool true, rest)
    | 'f' :: 'a' :: 'l' :: 's' :: 'e' :: rest => some (JVal.jbool false, rest)
    | '"' :: rest =>
      (parseStringBody rest).map (fun r => (JVal.jstr (String.mk r.1), r.2))
    | '[' :: rest =>
      (match rest.dropWhile jws with
       | ']' :: r2 => some (JVal.jarr [], r2)
       | _ => (parseElems fuel rest []).map (fun r => (JVal.jarr r.1, r.2)))
    | '\x7b' :: rest =>
      (match rest.dropWhile jws with
       | '\x7d' :: r2 => some (JVal.jobj [], r2)
       | _ => (parseMembers fuel rest []).map (fun r => (JVal.jobj r.1, r.2)))
    | c :: rest =>
      if c == '-' || isDig c then
        (parseNumber (c :: rest)).map (fun r => (JVal.jnum r.1.1 r.1.2, r.2))
      else none
    | [] => none

/-- Comma-separated array elements up to the closing bracket. -/
def parseElems : Nat → List Char → List JVal → Option (List JVal × List Char)
  | 0, _, _ => none
  | Nat.succ fuel, cs, acc =>
    match parseVal fuel cs with
    | none => none
    | some (v, rest) =>
      match rest.dropWhile jws with
      | ',' :: r2 => parseElems fuel r2 (acc ++ [v])
      | ']' :: r2 => some (acc ++ [v], r2)
      | _ => none

/-- Comma-separated object members up to the closing brace; duplicate keys
collapse with dict semantics, as in Python. -/
def parseMembers : Nat → List Char → List (String × JVal) →
    Option (List (String × JVal) × List Char)
  | 0, _, _ => none
  | Nat.succ fuel, cs, acc =>
    match cs.dropWhile jws with
    | '"' :: rest =>
      (match parseStringBody rest with
       | none => none
       | some (k, r1) =>
         match r1.dropWhile jws with
         | ':' :: r2 =>
           (match parseVal fuel r2 with
            | none => none
            | some (v, r3) =>
              match r3.dropWhile jws with
              | ',' :: r4 => parseMembers fuel r4 (dictInsert acc (String.mk k) v)
              | '\x7d' :: r4 => some (dictInsert acc (String.mk k) v, r4)
              | _ => none)
         | _ => none)
    | _ => none

end

/-- Model of Python's `json.loads`: parse one JSON document and require
that nothing but whitespace follows, else fail (`JSONDecodeError`). -/
def json_loads (s : String) : Option JVal :=
  match parseVal (s.length * 4 + 16) s.data with
  | some (v, rest) => if rest.dropWhile jws = [] then some v else none
  | none => none

/-- A tool-call record: the dict created as `\x7btool_id\x7d` by an invoke
event, later enriched with `name` and `arguments` by a matching
call/completion event.  The optional fields are `none` exactly while the
keys are absent from the Python dict. -/
structure ToolRec where
  tool_id : String
  name : Option JVal := none
  arguments : Option JVal := none

/-- Working state of `parse_amp_debug_logs` inside the scan loop. -/
structure ParseState where
  tool_calls : List ToolRec
  token_usage : List (String × JVal)
  perf : List (String × JVal)
  pending : List (String × ToolRec)

/-- Result dictionary of `parse_amp_debug_logs`. -/
structure ParsedLogs where
  tool_calls : List ToolRec
  token_usage : List (String × JVal)
  perf : List (String × JVal)

/-- Test whether `j.get("name")` equals the string `s` (Python `==` between
a possibly-missing value and a string literal). -/
def isName (f : List (String × JVal)) (s : String) : Bool :=
  match dictLookup f "name" with
  | some (JVal.jstr t) => t == s
  | _ => false

/-- ASCII whitespace stripped by Python's `str.strip`. -/
def pySpace (c : Char) : Bool :=
  c == ' ' || c == '\t' || c == '\n' || c == '\r' ||
  c == Char.ofNat 11 || c == Char.ofNat 12

/-- Python `s.strip()` (ASCII model). -/
def pyStrip (s : String) : String :=
  String.mk (((s.data.dropWhile pySpace).reverse.dropWhile pySpace).reverse)

/-- `message.split(",")[0].strip()` of the invoke event's message: the
prefix before the first comma (the whole string when there is none),
whitespace-stripped. -/
def toolIdOf (msg : String) : String :=
  pyStrip (String.mk (msg.data.takeWhile (fun c => c != ',')))

/-- `payload.get("toolId") or payload.get("id")`: Python `or` yields the
left operand when it is truthy, otherwise the right operand. -/
def payloadId (p : List (String × JVal)) : JVal :=
  if truthy (pyGet p "toolId") then pyGet p "toolId" else pyGet p "id"

/-- Token-usage step: when both `input_tokens` and `output_tokens` are
present, replace `token_usage` with exactly those two fields. -/
def tokenStep (f : List (String × JVal)) (st : ParseState) : ParseState :=
  if dictMember f "input_tokens" && dictMember f "output_tokens" then
    { st with token_usage :=
        [("input_tokens", pyGet f "input_tokens"),
         ("output_tokens", pyGet f "output_tokens")] }
  else st

/-- Performance step: when `inferenceDuration` is present, replace `perf`
with the subset of the three metric keys present in the record. -/
def perfStep (f : List (String × JVal)) (st : ParseState) : ParseState :=
  if dictMember f "inferenceDuration" then
    { st with perf :=
        ((["inferenceDuration", "tokensPerSecond", "outputTokens"].filter
            (fun k => dictMember f k)).map (fun k => (k, pyGet f k))) }
  else st

/-- Invoke step: on an `invokeTool` line, derive the tool id from the
message and insert a fresh `\x7btool_id\x7d` record into the pending map.
When the message value is not a string, `message.split` raises an
`AttributeError` that escapes to the outer handler: modelled by `.error`
with the state accumulated so far. -/
def invokeStep (f : List (String × JVal)) (st : ParseState) :
    Except ParseState ParseState :=
  if isName f "invokeTool" then
    match (dictLookup f "message").getD (JVal.jstr "") with
    | JVal.jstr s =>
      Except.ok
        { st with pending :=
                    dictInsert st.pending (toolIdOf s) { tool_id := toolIdOf s } }
    | _ => Except.error st
  else Except.ok st

/-- Call step: on a `toolCall` / `toolCallCompleted` line, parse the
message as a nested JSON payload, pick the id with
`payload.get("toolId") or payload.get("id")`, and when it is truthy and
pending, enrich the pending record with `name` and `arguments` (with the
source's defaults), remove it from pending and append it to the output.
Every failure inside this step is swallowed by the inner
`except Exception: pass`, leaving the state unchanged. -/
def callStep (f : List (String × JVal)) (st : ParseState) : ParseState :=
  if isName f "toolCall" || isName f "toolCallCompleted" then
    match dictLookup f "message" with
    | some (JVal.jstr m) =>
      (match json_loads m with
       | some (JVal.jobj p) =>
         if truthy (payloadId p) then
           match payloadId p with
           | JVal.jstr s =>
             (match dictLookup st.pending s with
              | some r =>
                { st with
                    pending := dictRemove st.pending s,
                    tool_calls := st.tool_calls ++
                      [{ r with
                          name := some ((dictLookup p "name").getD (JVal.jstr "unknown")),
                          arguments := some ((dictLookup p "arguments").getD (JVal.jobj [])) }] }
              | none => st)
           | _ => st
         else st
       | _ => st)
    | _ => st
  else st

/-- Processing of one successfully decoded line, in the source's statement
order.  A non-object value raises at its first key-membership or attribute
access, before any state change (`.error st`); an object runs the token,
perf, invoke and call steps in order, where only the invoke step can
abort. -/
def processLine (j : JVal) (st : ParseState) : Except ParseState ParseState :=
  match j with
  | JVal.jobj f =>
    (match invokeStep f (perfStep f (tokenStep f st)) with
     | Except.error st3 => Except.error st3
     | Except.ok st3 => Except.ok (callStep f st3))
  | _ => Except.error st

/-- The main line loop: skip undecodable lines (`JSONDecodeError` →
`continue`), thread the state through decoded ones, and stop at the state
reached when an exception escapes to the outer handler. -/
def scan : List (Option JVal) → ParseState → ParseState
  | [], st => st
  | none :: rest, st => scan rest st
  | some j :: rest, st =>
    match processLine j st with
    | Except.ok st' => scan rest st'
    | Except.error st' => st'

/-- State at function entry: empty accumulators and pending map. -/
def initState : ParseState :=
  { tool_calls := [], token_usage := [], perf := [], pending := [] }

/-- End of stream: `tool_calls.extend(pending.values())` and assembly of
the result dictionary. -/
def flushState (st : ParseState) : ParsedLogs :=
  { tool_calls := st.tool_calls ++ st.pending.map Prod.snd,
    token_usage := st.token_usage,
    perf := st.perf }

/-- `json.loads(raw.strip())`, with decode failure as `none`. -/
def decodeLine (raw : String) : Option JVal :=
  json_loads (pyStrip raw)

/-- The parser of scripts/test/test-debug-log-parsing.py.  The input is
the file's list of lines, or `none` when the file cannot be opened (the
open failure is printed and absorbed, and the empty pending map is still
flushed into the default result). -/
def parse_amp_debug_logs (file : Option (List String)) : ParsedLogs :=
  match file with
  | none => flushState initState
  | some lines => flushState (scan (lines.map decodeLine) initState)

/-- Outcome of `extract_thread_id` on one decoded line: an immediate
return, a fall-through to the next line, or an exception escaping to the
outer handler (which makes the whole function return `None`). -/
inductive ELine where
  | found : JVal → ELine
  | next : ELine
  | halt : ELine

/-- ASCII model of Python's `str.lower`. -/
def pyLower (s : String) : String :=
  String.mk (s.data.map (fun c =>
    if decide ('A' ≤ c) && decide (c ≤ 'Z') then Char.ofNat (c.toNat + 32) else c))

/-- Does `pat` start the character list `s`? -/
def startsL : List Char → List Char → Bool
  | [], _ => true
  | _ :: _, [] => false
  | p :: ps, c :: cs => p == c && startsL ps cs

/-- Substring test on character lists (Python `pat in s`). -/
def hasSubL (pat : List Char) : List Char → Bool
  | [] => pat.isEmpty
  | c :: cs => startsL pat (c :: cs) || hasSubL pat cs

/-- Characters accepted by the class `[a-f0-9-]`. -/
def isTChar (c : Char) : Bool :=
  (decide ('a' ≤ c) && decide (c ≤ 'f')) ||
  (decide ('0' ≤ c) && decide (c ≤ '9')) || c == '-'

/-- Greedy match of the regex `T-[a-f0-9-]+` at the current position. -/
def reMatchAt : List Char → Option (List Char)
  | 'T' :: '-' :: c :: rest =>
    if isTChar c then some ('T' :: '-' :: c :: rest.takeWhile isTChar) else none
  | _ => none

/-- Leftmost match of `T-[a-f0-9-]+` (Python `re.search`). -/
def reSearchL : List Char → Option (List Char)
  | [] => none
  | c :: cs =>
    match reMatchAt (c :: cs) with
    | some m => some m
    | none => reSearchL cs

/-- `re.search(r'T-[a-f0-9-]+', message)`, returning the matched text. -/
def reSearch (s : String) : Option String :=
  (reSearchL s.data).map String.mk

/-- One line of `extract_thread_id`: `threadId` key first, then
`thread_id`, then the `T-` pattern inside a message whose lowercase form
contains "thread".  A non-object line, or a non-string message value,
raises past the inner handler (`halt`). -/
def extractLine (j : JVal) : ELine :=
  match j with
  | JVal.jobj f =>
    (match dictLookup f "threadId" with
     | some v => ELine.found v
     | none =>
       match dictLookup f "thread_id" with
       | some v => ELine.found v
       | none =>
         match (dictLookup f "message").getD (JVal.jstr "") with
         | JVal.jstr m =>
           if hasSubL "thread".data (pyLower m).data then
             match reSearch m with
             | some t => ELine.found (JVal.jstr t)
             | none => ELine.next
           else ELine.next
         | _ => ELine.halt)
  | _ => ELine.halt

/-- Line loop of `extract_thread_id`: skip undecodable lines, return on
the first found identifier, and return `None` when an exception escapes
to the outer handler. -/
def extractScan : List (Option JVal) → Option JVal
  | [] => none
  | none :: rest => extractScan rest
  | some j :: rest =>
    match extractLine j with
    | ELine.found v => some v
    | ELine.next => extractScan rest
    | ELine.halt => none

/-- The thread-id extractor of scripts/test/test-debug-log-parsing.py. -/
def extract_thread_id (file : Option (List String)) : Option JVal :=
  match file with
  | none => none
  | some lines => extractScan (lines.map decodeLine)

namespace Dup

/-- Token-usage step of the duplicate parser in test-amp-debug-parsing.py
(the two source files carry character-identical logic). -/
def tokenStep (f : List (String × JVal)) (st : ParseState) : ParseState :=
  if dictMember f "input_tokens" && dictMember f "output_tokens" then
    { st with token_usage :=
        [("input_tokens", pyGet f "input_tokens"),
         ("output_tokens", pyGet f "output_tokens")] }
  else st

/-- Performance step of the duplicate parser. -/
def perfStep (f : List (String × JVal)) (st : ParseState) : ParseState :=
  if dictMember f "inferenceDuration" then
    { st with perf :=
        ((["inferenceDuration", "tokensPerSecond", "outputTokens"].filter
            (fun k => dictMember f k)).map (fun k => (k, pyGet f k))) }
  else st

/-- Invoke step of the duplicate parser. -/
def invokeStep (f : List (String × JVal)) (st : ParseState) :
    Except ParseState ParseState :=
  if isName f "invokeTool" then
    match (dictLookup f "message").getD (JVal.jstr "") with
    | JVal.jstr s =>
      Except.ok
        { st with pending :=
                    dictInsert st.pending (toolIdOf s) { tool_id := toolIdOf s } }
    | _ => Except.error st
  else Except.ok st

/-- Call step of the duplicate parser. -/
def callStep (f : List (String × JVal)) (st : ParseState) : ParseState :=
  if isName f "toolCall" || isName f "toolCallCompleted" then
    match dictLookup f "message" with
    | some (JVal.jstr m) =>
      (match json_loads m with
       | some (JVal.jobj p) =>
         if truthy (payloadId p) then
           match payloadId p with
           | JVal.jstr s =>
             (match dictLookup st.pending s with
              | some r =>
                { st with
                    pending := dictRemove st.pending s,
                    tool_calls := st.tool_calls ++
                      [{ r with
                          name := some ((dictLookup p "name").getD (JVal.jstr "unknown")),
                          arguments := some ((dictLookup p "arguments").getD (JVal.jobj [])) }] }
              | none => st)
           | _ => st
         else st
       | _ => st)
    | _ => st
  else st

/-- Per-line processing of the duplicate parser. -/
def processLine (j : JVal) (st : ParseState) : Except ParseState ParseState :=
  match j with
  | JVal.jobj f =>
    (match invokeStep f (perfStep f (tokenStep f st)) with
     | Except.error st3 => Except.error st3
     | Except.ok st3 => Except.ok (callStep f st3))
  | _ => Except.error st

/-- Line loop of the duplicate parser. -/
def scan : List (Option JVal) → ParseState → ParseState
  | [], st => st
  | none :: rest, st => scan rest st
  | some j :: rest, st =>
    match processLine j st with
    | Except.ok st' => scan rest st'
    | Except.error st' => st'

/-- The duplicate `parse_amp_debug_logs` of test-amp-debug-parsing.py. -/
def parse_amp_debug_logs (file : Option (List String)) : ParsedLogs :=
  match file with
  | none => flushState initState
  | some lines => flushState (scan (lines.map decodeLine) initState)

/-- Per-line step of the duplicate `extract_thread_id`. -/
def extractLine (j : JVal) : ELine :=
  match j with
  | JVal.jobj f =>
    (match dictLookup f "threadId" with
     | some v => ELine.found v
     | none =>
       match dictLookup f "thread_id" with
       | some v => ELine.found v
       | none =>
         match (dictLookup f "message").getD (JVal.jstr "") with
         | JVal.jstr m =>
           if hasSubL "thread".data (pyLower m).data then
             match reSearch m with
             | some t => ELine.found (JVal.jstr t)
             | none => ELine.next
           else ELine.next
         | _ => ELine.halt)
  | _ => ELine.halt

/-- Line loop of the duplicate `extract_thread_id`. -/
def extractScan : List (Option JVal) → Option JVal
  | [] => none
  | none :: rest => extractScan rest
  | some j :: rest =>
    match extractLine j with
    | ELine.found v => some v
    | ELine.next => extractScan rest
    | ELine.halt => none

/-- The duplicate `extract_thread_id` of test-amp-debug-parsing.py. -/
def extract_thread_id (file : Option (List String)) : Option JVal :=
  match file with
  | none => none
  | some lines => extractScan (lines.map decodeLine)

end Dup

/-- Keys of the pending map of a state. -/
def pKeys (st : ParseState) : List String :=
  st.pending.map Prod.fst

/-- Tool ids of the records already appended to the output list. -/
def oKeys (st : ParseState) : List String :=
  st.tool_calls.map ToolRec.tool_id

/-- Disjointness of the pending map and the output list: no tool id
occurs in both. -/
def disjB (st : ParseState) : Bool :=
  st.pending.all (fun e => st.tool_calls.all (fun r => r.tool_id != e.1))

/-- Trajectory of the scan: every state the parser passes through, from
the state before the first line up to the state at which the scan stops
(the state an escaping exception leaves behind included). -/
def scanStates : List (Option JVal) → ParseState → List ParseState
  | [], st => [st]
  | none :: rest, st => st :: scanStates rest st
  | some j :: rest, st =>
    match processLine j st with
    | Except.ok st' => st :: scanStates rest st'
    | Except.error st' => [st, st']

/-- Tool id created by a decoded line, when it is an invoke event with a
string message (the only case in which the parser creates a pending
entry). -/
def lineInvokeIds (o : Option JVal) : List String :=
  match o with
  | some (JVal.jobj f) =>
    if isName f "invokeTool" then
      match (dictLookup f "message").getD (JVal.jstr "") with
      | JVal.jstr s => [toolIdOf s]
      | _ => []
    else []
  | _ => []

/-- All tool ids carried by invoke events of a decoded line list. -/
def invokeIdsOf (l : List (Option JVal)) : List String :=
  (l.map lineInvokeIds).flatten

/-- A decoded line on which `parse_amp_debug_logs` does not raise past the
inner handler: either the raw line failed to decode, or it is a JSON
object which, when it is an invoke event, carries a string message. -/
def goodLine : Option JVal → Bool
  | none => true
  | some (JVal.jobj f) =>
    if isName f "invokeTool" then
      match (dictLookup f "message").getD (JVal.jstr "") with
      | JVal.jstr _ => true
      | _ => false
    else true
  | some _ => false

/-- A decoded line over which `extract_thread_id` falls through to the
next line: an undecodable line, or one yielding neither a return nor an
escaping exception. -/
def lineSkips (o : Option JVal) : Bool :=
  match o with
  | none => true
  | some j =>
    match extractLine j with
    | ELine.next => true
    | _ => false

/-- The token-usage dictionary a decoded line would install, when it is an
object carrying both counter keys. -/
def tokenOfLine (o : Option JVal) : Option (List (String × JVal)) :=
  match o with
  | some (JVal.jobj f) =>
    if dictMember f "input_tokens" && dictMember f "output_tokens" then
      some [("input_tokens", pyGet f "input_tokens"),
            ("output_tokens", pyGet f "output_tokens")]
    else none
  | _ => none

/-- Token usage of the last matching line of a decoded list, empty when no
line matches. -/
def lastTokenUsage (l : List (Option JVal)) : List (String × JVal) :=
  (l.filterMap tokenOfLine).getLastD []

/-- Failure condition of the call branch against a pending map: the
message is absent or not a string, or it does not decode to a JSON object,
or the selected id is falsy or not a pending key. -/
def callFails (f : List (String × JVal)) (pending : List (String × ToolRec)) : Bool :=
  match dictLookup f "message" with
  | some (JVal.jstr m) =>
    (match json_loads m with
     | some (JVal.jobj p) =>
       (match payloadId p with
        | JVal.jstr s => !(truthy (JVal.jstr s)) || !(dictMember pending s)
        | _ => true)
     | _ => true)
  | _ => true

/-- Is a JSON value an object? -/
def isObj : JVal → Bool
  | JVal.jobj _ => true
  | _ => false

/-- Ghost abstraction of a parse state: its pending keys and the number of
records already appended to the output. -/
def absG (st : ParseState) : List String × Nat :=
  (pKeys st, st.tool_calls.length)

/-- Map a function over both outcomes of an `Except` with equal carrier
types. -/
def emap {α β : Type} (h : α → β) : Except α α → Except β β
  | Except.ok a => Except.ok (h a)
  | Except.error a => Except.error (h a)

/-- Key insertion as performed by `dictInsert`, on the key list alone. -/
def insKey (ks : List String) (k : String) : List String :=
  if k ∈ ks then ks else ks ++ [k]

/-- Ghost image of the call step on (pending keys, match count): a match
event removes its key and increments the counter. -/
def ghostCall (f : List (String × JVal)) (g : List String × Nat) :
    List String × Nat :=
  if isName f "toolCall" || isName f "toolCallCompleted" then
    match dictLookup f "message" with
    | some (JVal.jstr m) =>
      (match json_loads m with
       | some (JVal.jobj p) =>
         if truthy (payloadId p) then
           match payloadId p with
           | JVal.jstr s =>
             if s ∈ g.1 then (g.1.filter (fun x => x != s), g.2 + 1) else g
           | _ => g
         else g
       | _ => g)
    | _ => g
  else g

/-- Ghost image of one line: pending-key and match-count evolution,
aborting exactly where `processLine` does. -/
def ghostLine (j : JVal) (g : List String × Nat) :
    Except (List String × Nat) (List String × Nat) :=
  match j with
  | JVal.jobj f =>
    if isName f "invokeTool" then
      match (dictLookup f "message").getD (JVal.jstr "") with
      | JVal.jstr s => Except.ok (ghostCall f (insKey g.1 (toolIdOf s), g.2))
      | _ => Except.error g
    else Except.ok (ghostCall f g)
  | _ => Except.error g

/-- Ghost scan: pending keys and number of match events over a line
list. -/
def ghostScan : List (Option JVal) → List String × Nat → List String × Nat
  | [], g => g
  | none :: rest, g => ghostScan rest g
  | some j :: rest, g =>
    match ghostLine j g with
    | Except.ok g' => ghostScan rest g'
    | Except.error g' => g'

/-- Number of invoke entries matched by a call/completion event during the
run on a file. -/
def matchedCount (lines : List String) : Nat :=
  (ghostScan (lines.map decodeLine) ([], 0)).2

/-- Number of pending entries still unmatched when the run on a file
ends. -/
def unmatchedCount (lines : List String) : Nat :=
  (ghostScan (lines.map decodeLine) ([], 0)).1.length

/-! ### Association-list lemmas -/

theorem dictMember_iff {α : Type} (d : List (String × α)) (k : String) :
    dictMember d k = true ↔ k ∈ d.map Prod.fst := by
  induction d with
  | nil => simp [dictMember]
  | cons e rest ih =>
    simp only [dictMember, Bool.or_eq_true, beq_iff_eq, List.map_cons,
      List.mem_cons, ih]
    constructor
    · rintro (h | h)
      · exact Or.inl h.symm
      · exact Or.inr h
    · rintro (h | h)
      · exact Or.inl h.symm
      · exact Or.inr h

theorem map_fst_replace {α : Type} (d : List (String × α)) (k : String) (v : α) :
    (d.map (fun e => if e.1 = k then (k, v) else e)).map Prod.fst =
      d.map Prod.fst := by
  induction d with
  | nil => rfl
  | cons e rest ih =>
    simp only [List.map_cons, ih]
    by_cases he : e.1 = k
    · rw [if_pos he]
      simp [he]
    · rw [if_neg he]

theorem map_fst_dictInsert {α : Type} (d : List (String × α)) (k : String) (v : α) :
    (dictInsert d k v).map Prod.fst = insKey (d.map Prod.fst) k := by
  unfold dictInsert insKey
  by_cases h : dictMember d k = true
  · rw [if_pos h, if_pos ((dictMember_iff d k).mp h), map_fst_replace]
  · rw [if_neg h, if_neg (fun hm => h ((dictMember_iff d k).mpr hm))]
    simp

theorem map_fst_dictRemove {α : Type} (d : List (String × α)) (k : String) :
    (dictRemove d k).map Prod.fst = (d.map Prod.fst).filter (fun x => x != k) := by
  unfold dictRemove
  induction d with
  | nil => rfl
  | cons e rest ih =>
    by_cases he : e.1 = k
    · simp [List.filter_cons, he, ih]
    · simp [List.filter_cons, he, ih]

theorem dictLookup_eq_none_iff {α : Type} (d : List (String × α)) (k : String) :
    dictLookup d k = none ↔ k ∉ d.map Prod.fst := by
  induction d with
  | nil => simp [dictLookup]
  | cons e rest ih =>
    by_cases he : e.1 = k
    · simp [dictLookup, he]
    · simp only [dictLookup, if_neg he, List.map_cons, List.mem_cons, ih]
      constructor
      · intro h hk
        rcases hk with hk | hk
        · exact he hk.symm
        · exact h hk
      · intro h hk
        exact h (Or.inr hk)

theorem dictMember_false_lookup {α : Type} {p : List (String × α)} {k : String}
    (h : dictMember p k = false) : dictLookup p k = none := by
  apply (dictLookup_eq_none_iff p k).mpr
  intro hm
  rw [(dictMember_iff p k).mpr hm] at h
  cases h

theorem dictLookup_mem {α : Type} {d : List (String × α)} {k : String} {v : α}
    (h : dictLookup d k = some v) : (k, v) ∈ d := by
  induction d with
  | nil => simp [dictLookup] at h
  | cons e rest ih =>
    by_cases he : e.1 = k
    · obtain ⟨e1, e2⟩ := e
      simp only at he
      subst he
      have h2 : some e2 = some v := by simpa [dictLookup] using h
      cases Option.some.inj h2
      exact List.mem_cons_self _ _
    · simp only [dictLookup, if_neg he] at h
      exact List.mem_cons_of_mem _ (ih h)

theorem mem_dictInsert {α : Type} {d : List (String × α)} {k : String} {v : α}
    {e : String × α} (h : e ∈ dictInsert d k v) : e ∈ d ∨ e = (k, v) := by
  unfold dictInsert at h
  by_cases hm : dictMember d k = true
  · rw [if_pos hm] at h
    rcases List.mem_map.mp h with ⟨x, hx, hxe⟩
    by_cases hxk : x.1 = k
    · right
      rw [if_pos hxk] at hxe
      exact hxe.symm
    · left
      rw [if_neg hxk] at hxe
      exact hxe ▸ hx
  · rw [if_neg hm] at h
    rcases List.mem_append.mp h with h1 | h1
    · exact Or.inl h1
    · exact Or.inr (List.mem_singleton.mp h1)

theorem mem_dictRemove {α : Type} {d : List (String × α)} {k : String}
    {e : String × α} (h : e ∈ dictRemove d k) : e ∈ d :=
  (List.mem_filter.mp h).1

/-! ### Step characterizations -/

theorem tokenStep_pending (f : List (String × JVal)) (st : ParseState) :
    (tokenStep f st).pending = st.pending := by
  unfold tokenStep
  split <;> rfl

theorem tokenStep_tool_calls (f : List (String × JVal)) (st : ParseState) :
    (tokenStep f st).tool_calls = st.tool_calls := by
  unfold tokenStep
  split <;> rfl

theorem tokenStep_token_usage (f : List (String × JVal)) (st : ParseState) :
    (tokenStep f st).token_usage =
      (tokenOfLine (some (JVal.jobj f))).getD st.token_usage := by
  simp only [tokenStep, tokenOfLine]
  by_cases h : (dictMember f "input_tokens" && dictMember f "output_tokens") = true
  · rw [if_pos h, if_pos h]
    rfl
  · rw [if_neg h, if_neg h]
    rfl

theorem perfStep_pending (f : List (String × JVal)) (st : ParseState) :
    (perfStep f st).pending = st.pending := by
  unfold perfStep
  split <;> rfl

theorem perfStep_tool_calls (f : List (String × JVal)) (st : ParseState) :
    (perfStep f st).tool_calls = st.tool_calls := by
  unfold perfStep
  split <;> rfl

theorem perfStep_token_usage (f : List (String × JVal)) (st : ParseState) :
    (perfStep f st).token_usage = st.token_usage := by
  unfold perfStep
  split <;> rfl

/-- The invoke step either creates one pending record (string message on
an invoke event), leaves the state alone (any other event), or aborts with
the state unchanged (non-string message on an invoke event). -/
theorem invokeStep_cases (f : List (String × JVal)) (st : ParseState) :
    (isName f "invokeTool" = true ∧
      (∃ s, (dictLookup f "message").getD (JVal.jstr "") = JVal.jstr s ∧
        invokeStep f st = Except.ok
          { st with pending :=
              dictInsert st.pending (toolIdOf s) { tool_id := toolIdOf s } }))
    ∨ (isName f "invokeTool" = false ∧ invokeStep f st = Except.ok st)
    ∨ invokeStep f st = Except.error st := by
  unfold invokeStep
  by_cases hn : isName f "invokeTool" = true
  · rw [if_pos hn]
    cases hm : (dictLookup f "message").getD (JVal.jstr "") with
    | jstr s => exact Or.inl ⟨hn, s, rfl, rfl⟩
    | jnull => exact Or.inr (Or.inr rfl)
    | jbool b => exact Or.inr (Or.inr rfl)
    | jnum m e => exact Or.inr (Or.inr rfl)
    | jarr l => exact Or.inr (Or.inr rfl)
    | jobj o => exact Or.inr (Or.inr rfl)
  · rw [if_neg hn]
    exact Or.inr (Or.inl ⟨Bool.not_eq_true _ ▸ eq_false_of_ne_true hn, rfl⟩)

/-- The call step either matches — removing one pending entry and
appending the enriched record — or returns the state unchanged. -/
theorem callStep_cases (f : List (String × JVal)) (st : ParseState) :
    callStep f st = st
    ∨ (∃ m p s r, dictLookup f "message" = some (JVal.jstr m) ∧
        json_loads m = some (JVal.jobj p) ∧ payloadId p = JVal.jstr s ∧
        s ≠ "" ∧ dictLookup st.pending s = some r ∧
        callStep f st =
          { st with
              pending := dictRemove st.pending s,
              tool_calls := st.tool_calls ++
                [{ r with
                    name := some ((dictLookup p "name").getD (JVal.jstr "unknown")),
                    arguments := some ((dictLookup p "arguments").getD (JVal.jobj [])) }] }) := by
  unfold callStep
  split
  · split
    · rename_i m hm
      split
      · rename_i p hj
        split
        · rename_i ht
          split
          · rename_i s hid
            split
            · rename_i r hr
              right
              refine ⟨m, p, s, r, hm, hj, hid, ?_, hr, rfl⟩
              have h2 : truthy (JVal.jstr s) = true := hid ▸ ht
              simpa [truthy] using h2
            · left
              rfl
          all_goals
            left
            rfl
        · left
          rfl
      · left
        rfl
    · left
      rfl
  · left
    rfl

theorem callStep_token_usage (f : List (String × JVal)) (st : ParseState) :
    (callStep f st).token_usage = st.token_usage := by
  rcases callStep_cases f st with h | ⟨m, p, s, r, _, _, _, _, _, h⟩ <;> rw [h]

theorem processLine_error_state {j : JVal} {st st' : ParseState}
    (h : processLine j st = Except.error st') :
    st'.pending = st.pending ∧ st'.tool_calls = st.tool_calls := by
  unfold processLine at h
  match j with
  | JVal.jnull | JVal.jbool _ | JVal.jnum _ _ | JVal.jstr _ | JVal.jarr _ =>
    cases h
    exact ⟨rfl, rfl⟩
  | JVal.jobj f =>
    simp only at h
    rcases invokeStep_cases f (perfStep f (tokenStep f st)) with
      ⟨_, s, _, hi⟩ | ⟨_, hi⟩ | hi <;> rw [hi] at h
    · cases h
    · cases h
    · cases h
      constructor
      · rw [perfStep_pending, tokenStep_pending]
      · rw [perfStep_tool_calls, tokenStep_tool_calls]

/-! ### Ghost simulation for the length accounting -/

theorem absG_tokenStep (f : List (String × JVal)) (st : ParseState) :
    absG (tokenStep f st) = absG st := by
  simp [absG, pKeys, tokenStep_pending, tokenStep_tool_calls]

theorem absG_perfStep (f : List (String × JVal)) (st : ParseState) :
    absG (perfStep f st) = absG st := by
  simp [absG, pKeys, perfStep_pending, perfStep_tool_calls]

theorem absG_callStep (f : List (String × JVal)) (st : ParseState) :
    absG (callStep f st) = ghostCall f (absG st) := by
  unfold callStep ghostCall
  by_cases h1 : (isName f "toolCall" || isName f "toolCallCompleted") = true
  · rw [if_pos h1, if_pos h1]
    cases hm : dictLookup f "message" with
    | none => simp only [hm]
    | some mv =>
      cases mv with
      | jstr m =>
        simp only [hm]
        cases hj : json_loads m with
        | none => simp only [hj]
        | some jv =>
          cases jv with
          | jobj p =>
            simp only [hj]
            by_cases ht : truthy (payloadId p) = true
            · rw [if_pos ht, if_pos ht]
              cases hid : payloadId p with
              | jstr s =>
                simp only [hid]
                cases hr : dictLookup st.pending s with
                | none =>
                  simp only [hr]
                  have hmem : s ∉ (absG st).1 := by
                    simpa [absG, pKeys] using (dictLookup_eq_none_iff st.pending s).mp hr
                  rw [if_neg hmem]
                | some r =>
                  simp only [hr]
                  have hmem : s ∈ (absG st).1 := by
                    have := dictLookup_mem hr
                    simp only [absG, pKeys]
                    exact List.mem_map.mpr ⟨(s, r), this, rfl⟩
                  rw [if_pos hmem]
                  simp [absG, pKeys, map_fst_dictRemove]
              | jnull => simp only [hid]
              | jbool b => simp only [hid]
              | jnum m e => simp only [hid]
              | jarr l => simp only [hid]
              | jobj o => simp only [hid]
            · rw [if_neg ht, if_neg ht]
          | jnull => simp only [hj]
          | jbool b => simp only [hj]
          | jnum m e => simp only [hj]
          | jstr s2 => simp only [hj]
          | jarr l => simp only [hj]
      | jnull => simp only [hm]
      | jbool b => simp only [hm]
      | jnum m e => simp only [hm]
      | jarr l => simp only [hm]
      | jobj o => simp only [hm]
  · rw [if_neg h1, if_neg h1]

theorem ghostLine_sim (j : JVal) (st : ParseState) :
    ghostLine j (absG st) = emap absG (processLine j st) := by
  cases j with
  | jobj f =>
    have habs : absG (perfStep f (tokenStep f st)) = absG st := by
      rw [absG_perfStep, absG_tokenStep]
    simp only [ghostLine, processLine]
    rcases invokeStep_cases f (perfStep f (tokenStep f st)) with
      ⟨hn, s, hm, hi⟩ | ⟨hn, hi⟩ | hi
    · rw [if_pos hn]
      simp only [hm, hi, emap]
      rw [absG_callStep]
      have : absG { perfStep f (tokenStep f st) with
          pending := dictInsert (perfStep f (tokenStep f st)).pending (toolIdOf s)
            { tool_id := toolIdOf s } } =
          (insKey (absG st).1 (toolIdOf s), (absG st).2) := by
        simp only [absG, pKeys, map_fst_dictInsert, perfStep_pending,
          tokenStep_pending, perfStep_tool_calls, tokenStep_tool_calls]
      rw [this]
    · rw [if_neg (by simp [hn])]
      simp only [hi, emap]
      rw [absG_callStep, habs]
    · -- the invoke branch aborted: name is invokeTool, message not a string
      have hok : invokeStep f (perfStep f (tokenStep f st)) =
          Except.error (perfStep f (tokenStep f st)) := hi
      unfold invokeStep at hok
      by_cases hn : isName f "invokeTool" = true
      · rw [if_pos hn] at hok
        rw [if_pos hn]
        cases hm : (dictLookup f "message").getD (JVal.jstr "") with
        | jstr s =>
          rw [hm] at hok
          cases hok
        | jnull =>
          simp only [hm, hi, emap, habs]
        | jbool b =>
          simp only [hm, hi, emap, habs]
        | jnum m e =>
          simp only [hm, hi, emap, habs]
        | jarr l =>
          simp only [hm, hi, emap, habs]
        | jobj o =>
          simp only [hm, hi, emap, habs]
      · rw [if_neg hn] at hok
        cases hok
  | jnull => rfl
  | jbool b => rfl
  | jnum m e => rfl
  | jstr s => rfl
  | jarr l => rfl

theorem ghostScan_sim (l : List (Option JVal)) (st : ParseState) :
    ghostScan l (absG st) = absG (scan l st) := by
  induction l generalizing st with
  | nil => rfl
  | cons o rest ih =>
    cases o with
    | none => exact ih st
    | some j =>
      simp only [ghostScan, scan]
      rw [ghostLine_sim]
      cases hp : processLine j st with
      | ok st' =>
        simp only [hp, emap]
        exact ih st'
      | error st' =>
        simp only [hp, emap]

/-! ### Shape invariants of the scan state -/

/-- Every record still pending is exactly the fresh `\x7btool_id\x7d` dict
created by its invoke event. -/
def PendPure (st : ParseState) : Prop :=
  ∀ e ∈ st.pending, e.2 = { tool_id := e.1, name := none, arguments := none }

/-- Every record already in the output list was enriched: it carries both
a `name` and an `arguments` key. -/
def OutFull (st : ParseState) : Prop :=
  ∀ r ∈ st.tool_calls, r.name.isSome = true ∧ r.arguments.isSome = true

theorem callStep_preserves (f : List (String × JVal)) (st : ParseState)
    (hp : PendPure st) (ho : OutFull st) :
    PendPure (callStep f st) ∧ OutFull (callStep f st) := by
  rcases callStep_cases f st with h | ⟨m, p, s, r, hm, hj, hid, hs, hr, h⟩
  · rw [h]
    exact ⟨hp, ho⟩
  · rw [h]
    constructor
    · intro e he
      exact hp e (mem_dictRemove he)
    · intro q hq
      rcases List.mem_append.mp hq with hq | hq
      · exact ho q hq
      · rw [List.mem_singleton.mp hq]
        exact ⟨rfl, rfl⟩

theorem processLine_preserves {j : JVal} {st st' : ParseState}
    (h : processLine j st = Except.ok st' ∨ processLine j st = Except.error st')
    (hp : PendPure st) (ho : OutFull st) : PendPure st' ∧ OutFull st' := by
  cases j with
  | jobj f =>
    have hpt : PendPure (perfStep f (tokenStep f st)) ∧
        OutFull (perfStep f (tokenStep f st)) := by
      constructor
      · intro e he
        rw [perfStep_pending, tokenStep_pending] at he
        exact hp e he
      · intro r hr
        rw [perfStep_tool_calls, tokenStep_tool_calls] at hr
        exact ho r hr
    rcases invokeStep_cases f (perfStep f (tokenStep f st)) with
      ⟨hn, s, hm, hi⟩ | ⟨hn, hi⟩ | hi
    · have h3 : PendPure { perfStep f (tokenStep f st) with
          pending := dictInsert (perfStep f (tokenStep f st)).pending (toolIdOf s)
            { tool_id := toolIdOf s } } ∧
          OutFull { perfStep f (tokenStep f st) with
            pending := dictInsert (perfStep f (tokenStep f st)).pending (toolIdOf s)
              { tool_id := toolIdOf s } } := by
        constructor
        · intro e he
          rcases mem_dictInsert he with he | he
          · exact hpt.1 e he
          · rw [he]
        · exact hpt.2
      have heq : processLine (JVal.jobj f) st = Except.ok (callStep f
          { perfStep f (tokenStep f st) with
            pending := dictInsert (perfStep f (tokenStep f st)).pending (toolIdOf s)
              { tool_id := toolIdOf s } }) := by
        simp only [processLine, hi]
      rw [heq] at h
      rcases h with h | h
      · injection h with h2
        rw [← h2]
        exact callStep_preserves f _ h3.1 h3.2
      · exact Except.noConfusion h
    · have heq : processLine (JVal.jobj f) st =
          Except.ok (callStep f (perfStep f (tokenStep f st))) := by
        simp only [processLine, hi]
      rw [heq] at h
      rcases h with h | h
      · injection h with h2
        rw [← h2]
        exact callStep_preserves f _ hpt.1 hpt.2
      · exact Except.noConfusion h
    · have heq : processLine (JVal.jobj f) st =
          Except.error (perfStep f (tokenStep f st)) := by
        simp only [processLine, hi]
      rw [heq] at h
      rcases h with h | h
      · exact Except.noConfusion h
      · injection h with h2
        rw [← h2]
        exact hpt
  | jnull =>
    rcases h with h | h
    · exact Except.noConfusion h
    · injection h with h2
      rw [← h2]
      exact ⟨hp, ho⟩
  | jbool b =>
    rcases h with h | h
    · exact Except.noConfusion h
    · injection h with h2
      rw [← h2]
      exact ⟨hp, ho⟩
  | jnum m e =>
    rcases h with h | h
    · exact Except.noConfusion h
    · injection h with h2
      rw [← h2]
      exact ⟨hp, ho⟩
  | jstr s =>
    rcases h with h | h
    · exact Except.noConfusion h
    · injection h with h2
      rw [← h2]
      exact ⟨hp, ho⟩
  | jarr l =>
    rcases h with h | h
    · exact Except.noConfusion h
    · injection h with h2
      rw [← h2]
      exact ⟨hp, ho⟩

theorem scan_preserves (l : List (Option JVal)) (st : ParseState)
    (hp : PendPure st) (ho : OutFull st) :
    PendPure (scan l st) ∧ OutFull (scan l st) := by
  induction l generalizing st with
  | nil => exact ⟨hp, ho⟩
  | cons o rest ih =>
    cases o with
    | none => exact ih st hp ho
    | some j =>
      simp only [scan]
      cases hpl : processLine j st with
      | ok st' =>
        rcases processLine_preserves (Or.inl hpl) hp ho with ⟨h1, h2⟩
        exact ih st' h1 h2
      | error st' =>
        exact processLine_preserves (Or.inr hpl) hp ho

/-! ### Disjointness of pending map and output list -/

theorem disjB_iff (st : ParseState) :
    disjB st = true ↔ ∀ k ∈ pKeys st, k ∉ oKeys st := by
  unfold disjB pKeys oKeys
  rw [List.all_eq_true]
  constructor
  · intro h k hk hko
    rcases List.mem_map.mp hk with ⟨e, he, hek⟩
    rcases List.mem_map.mp hko with ⟨r, hr, hrk⟩
    have h2 := List.all_eq_true.mp (h e he) r hr
    rw [bne_iff_ne] at h2
    exact h2 (by rw [hrk, ← hek])
  · intro h e he
    rw [List.all_eq_true]
    intro r hr
    rw [bne_iff_ne]
    intro heq
    exact h e.1 (List.mem_map.mpr ⟨e, he, rfl⟩) (List.mem_map.mpr ⟨r, hr, heq⟩)

theorem disjB_of_nodup {st : ParseState} {ids : List String}
    (h : (pKeys st ++ oKeys st ++ ids).Nodup) : disjB st = true := by
  apply (disjB_iff st).mpr
  intro k hk hko
  have h1 : (pKeys st ++ oKeys st).Nodup := (List.nodup_append.mp h).1
  exact (List.nodup_append.mp h1).2.2 hk hko

theorem perm_filter_ne {l : List String} {s : String} (hn : l.Nodup)
    (hs : s ∈ l) : List.Perm l (l.filter (fun x => x != s) ++ [s]) := by
  induction l with
  | nil => exact absurd hs (List.not_mem_nil s)
  | cons x xs ih =>
    rcases List.nodup_cons.mp hn with ⟨hx, hxs⟩
    by_cases hsx : s = x
    · subst hsx
      have hf1 : (s != s) = false := by simp
      have hf2 : xs.filter (fun x => x != s) = xs :=
        List.filter_eq_self.mpr (fun a ha => bne_iff_ne.mpr (fun h => hx (h ▸ ha)))
      rw [List.filter_cons, hf1, hf2]
      exact (List.perm_append_singleton s xs).symm
    · have hsxs : s ∈ xs := by
        rcases List.mem_cons.mp hs with h | h
        · exact absurd h hsx
        · exact h
      have hf1 : (x != s) = true := bne_iff_ne.mpr (fun h => hsx h.symm)
      rw [List.filter_cons, hf1]
      exact List.Perm.cons x (ih hxs hsxs)

theorem perm_move (a b c : List String) (t : String) :
    List.Perm (a ++ b ++ (t :: c)) ((a ++ [t]) ++ b ++ c) := by
  have e1 : a ++ b ++ (t :: c) = a ++ (b ++ (t :: c)) := List.append_assoc a b _
  have e2 : (a ++ [t]) ++ b ++ c = a ++ ([t] ++ (b ++ c)) := by
    rw [List.append_assoc, List.append_assoc]
  rw [e1, e2]
  exact List.Perm.append_left a List.perm_middle

theorem isName_unique {f : List (String × JVal)} {a b : String}
    (h : isName f a = true) (hab : a ≠ b) : isName f b = false := by
  unfold isName at h ⊢
  cases hl : dictLookup f "name" with
  | none => simp [hl] at h
  | some v =>
    cases v with
    | jstr t =>
      rw [hl] at h
      have ht : t = a := by simpa using h
      subst ht
      exact beq_eq_false_iff_ne.mpr hab
    | jnull => simp [hl] at h
    | jbool x => simp [hl] at h
    | jnum x y => simp [hl] at h
    | jarr x => simp [hl] at h
    | jobj x => simp [hl] at h

theorem callStep_not_call {f : List (String × JVal)} {st : ParseState}
    (h : (isName f "toolCall" || isName f "toolCallCompleted") = false) :
    callStep f st = st := by
  unfold callStep
  rw [if_neg (by simp [h])]

theorem pKeys_perf_token (f : List (String × JVal)) (st : ParseState) :
    pKeys (perfStep f (tokenStep f st)) = pKeys st := by
  unfold pKeys
  rw [perfStep_pending, tokenStep_pending]

theorem oKeys_perf_token (f : List (String × JVal)) (st : ParseState) :
    oKeys (perfStep f (tokenStep f st)) = oKeys st := by
  unfold oKeys
  rw [perfStep_tool_calls, tokenStep_tool_calls]

theorem invokeIdsOf_cons (o : Option JVal) (rest : List (Option JVal)) :
    invokeIdsOf (o :: rest) = lineInvokeIds o ++ invokeIdsOf rest := by
  simp [invokeIdsOf]

/-- One successful step keeps the combined id list duplicate-free: an
invoke uses up its own id from the upcoming-ids budget, a match moves an
id from the pending keys to the output keys. -/
theorem step_nodup {j : JVal} {st st' : ParseState} {ids : List String}
    (h : processLine j st = Except.ok st')
    (hI : (pKeys st ++ oKeys st ++ (lineInvokeIds (some j) ++ ids)).Nodup)
    (hp : PendPure st) :
    (pKeys st' ++ oKeys st' ++ ids).Nodup := by
  cases j with
  | jobj f =>
    rcases invokeStep_cases f (perfStep f (tokenStep f st)) with
      ⟨hn, s, hm, hi⟩ | ⟨hn, hi⟩ | hi
    · -- invoke fired; the call branch is then a no-op
      have hline : lineInvokeIds (some (JVal.jobj f)) = [toolIdOf s] := by
        simp only [lineInvokeIds, if_pos hn, hm]
      have hcc : (isName f "toolCall" || isName f "toolCallCompleted") = false := by
        rw [isName_unique hn (by decide), isName_unique hn (by decide)]
        rfl
      have heq : processLine (JVal.jobj f) st = Except.ok
          { perfStep f (tokenStep f st) with
            pending := dictInsert (perfStep f (tokenStep f st)).pending (toolIdOf s)
              { tool_id := toolIdOf s } } := by
        simp only [processLine, hi, callStep_not_call hcc]
      rw [heq] at h
      injection h with h2
      rw [hline] at hI
      have hnotp : toolIdOf s ∉ pKeys st ++ oKeys st := by
        intro hmem
        have hd := (List.nodup_append.mp hI).2.2
        exact hd hmem (List.mem_cons_self _ _)
      have hkeys : pKeys st' = pKeys st ++ [toolIdOf s] := by
        rw [← h2]
        show ((dictInsert (perfStep f (tokenStep f st)).pending (toolIdOf s)
          { tool_id := toolIdOf s }).map Prod.fst) = pKeys st ++ [toolIdOf s]
        rw [map_fst_dictInsert]
        have : (perfStep f (tokenStep f st)).pending.map Prod.fst = pKeys st :=
          pKeys_perf_token f st
        rw [this]
        unfold insKey
        rw [if_neg (fun hm2 => hnotp (List.mem_append.mpr (Or.inl hm2)))]
      have hout : oKeys st' = oKeys st := by
        rw [← h2]
        exact oKeys_perf_token f st
      rw [hkeys, hout]
      have hperm := perm_move (pKeys st) (oKeys st) ids (toolIdOf s)
      have hgoal : List.Perm (pKeys st ++ oKeys st ++ (toolIdOf s :: ids))
          ((pKeys st ++ [toolIdOf s]) ++ oKeys st ++ ids) := hperm
      exact hgoal.nodup hI
    · -- not an invoke line
      have hline : lineInvokeIds (some (JVal.jobj f)) = [] := by
        simp only [lineInvokeIds, hn]
        rfl
      rw [hline, List.nil_append] at hI
      have heq : processLine (JVal.jobj f) st =
          Except.ok (callStep f (perfStep f (tokenStep f st))) := by
        simp only [processLine, hi]
      rw [heq] at h
      injection h with h2
      rcases callStep_cases f (perfStep f (tokenStep f st)) with hcs |
        ⟨m, p2, s, r, hm, hj, hid, hs, hr, hcs⟩
      · rw [← h2, hcs]
        rw [pKeys_perf_token, oKeys_perf_token]
        exact hI
      · -- a match: s moves from pending keys to output keys
        have hrp : (s, r) ∈ st.pending := by
          have := dictLookup_mem hr
          rwa [perfStep_pending, tokenStep_pending] at this
        have hrid : r.tool_id = s := by
          have h3 : r = { tool_id := s, name := none, arguments := none } :=
            hp (s, r) hrp
          rw [h3]
        have hsp : s ∈ pKeys st :=
          List.mem_map.mpr ⟨(s, r), hrp, rfl⟩
        have hnp : (pKeys st).Nodup := (List.nodup_append.mp
          ((List.nodup_append.mp hI).1)).1
        have hkeys : pKeys st' = (pKeys st).filter (fun x => x != s) := by
          rw [← h2, hcs]
          show ((dictRemove (perfStep f (tokenStep f st)).pending s).map Prod.fst) = _
          rw [map_fst_dictRemove]
          rw [show (perfStep f (tokenStep f st)).pending.map Prod.fst = pKeys st from
            pKeys_perf_token f st]
        have hout : oKeys st' = oKeys st ++ [s] := by
          rw [← h2, hcs]
          show ((perfStep f (tokenStep f st)).tool_calls ++ _).map ToolRec.tool_id = _
          rw [List.map_append]
          rw [show (perfStep f (tokenStep f st)).tool_calls.map ToolRec.tool_id =
            oKeys st from oKeys_perf_token f st]
          simp [hrid]
        rw [hkeys, hout]
        -- permute (p ++ o ++ ids) into (p.filter ++ (o ++ [s]) ++ ids)
        have hperm1 : List.Perm (pKeys st)
            ((pKeys st).filter (fun x => x != s) ++ [s]) :=
          perm_filter_ne hnp hsp
        have hperm2 : List.Perm (pKeys st ++ oKeys st ++ ids)
            ((((pKeys st).filter (fun x => x != s) ++ [s]) ++ oKeys st) ++ ids) :=
          (hperm1.append_right (oKeys st)).append_right ids
        have hperm3 : List.Perm
            ((((pKeys st).filter (fun x => x != s) ++ [s]) ++ oKeys st) ++ ids)
            (((pKeys st).filter (fun x => x != s) ++ (oKeys st ++ [s])) ++ ids) := by
          apply List.Perm.append_right ids
          have e1 : ((pKeys st).filter (fun x => x != s) ++ [s]) ++ oKeys st =
            (pKeys st).filter (fun x => x != s) ++ (s :: oKeys st) := by
            rw [List.append_assoc]
            rfl
          rw [e1]
          exact ((List.perm_append_singleton s (oKeys st)).symm).append_left _
        exact (hperm2.trans hperm3).nodup hI
    · -- the invoke branch aborted: contradiction with a successful step
      have heq : processLine (JVal.jobj f) st =
          Except.error (perfStep f (tokenStep f st)) := by
        simp only [processLine, hi]
      rw [heq] at h
      exact Except.noConfusion h
  | jnull => exact Except.noConfusion h
  | jbool b => exact Except.noConfusion h
  | jnum m e => exact Except.noConfusion h
  | jstr s => exact Except.noConfusion h
  | jarr l => exact Except.noConfusion h

/-- Along the whole trajectory of a scan whose upcoming invoke ids are
fresh, the pending map and the output list stay disjoint. -/
theorem traj_disj (l : List (Option JVal)) (st : ParseState)
    (hI : (pKeys st ++ oKeys st ++ invokeIdsOf l).Nodup) (hp : PendPure st)
    (ho : OutFull st) :
    ∀ x ∈ scanStates l st, disjB x = true := by
  induction l generalizing st with
  | nil =>
    intro x hx
    simp only [scanStates, List.mem_singleton] at hx
    subst hx
    exact disjB_of_nodup hI
  | cons o rest ih =>
    cases o with
    | none =>
      intro x hx
      simp only [scanStates] at hx
      rcases List.mem_cons.mp hx with rfl | hx2
      · exact disjB_of_nodup hI
      · have hI2 : (pKeys st ++ oKeys st ++ invokeIdsOf rest).Nodup := by
          rw [invokeIdsOf_cons] at hI
          simpa [lineInvokeIds] using hI
        exact ih st hI2 hp ho x hx2
    | some j =>
      intro x hx
      simp only [scanStates] at hx
      cases hpl : processLine j st with
      | ok st' =>
        rw [hpl] at hx
        rcases List.mem_cons.mp hx with rfl | hx2
        · exact disjB_of_nodup hI
        · have hI2 : (pKeys st' ++ oKeys st' ++ invokeIdsOf rest).Nodup := by
            apply step_nodup hpl _ hp
            rw [invokeIdsOf_cons] at hI
            exact hI
          rcases processLine_preserves (Or.inl hpl) hp ho with ⟨hp2, ho2⟩
          exact ih st' hI2 hp2 ho2 x hx2
      | error st' =>
        rw [hpl] at hx
        rcases List.mem_cons.mp hx with rfl | hx2
        · exact disjB_of_nodup hI
        · rcases List.mem_cons.mp hx2 with rfl | hx3
          · rcases processLine_error_state hpl with ⟨he1, he2⟩
            have : disjB x = disjB st := by
              unfold disjB
              rw [he1, he2]
            rw [this]
            exact disjB_of_nodup hI
          · exact absurd hx3 (List.not_mem_nil x)

/-! ### Token-usage accounting -/

theorem goodLine_ok {j : JVal} (hg : goodLine (some j) = true)
    (st : ParseState) : ∃ st', processLine j st = Except.ok st' := by
  cases j with
  | jobj f =>
    by_cases hn : isName f "invokeTool" = true
    · cases hm : (dictLookup f "message").getD (JVal.jstr "") with
      | jstr s =>
        have hi : invokeStep f (perfStep f (tokenStep f st)) = Except.ok
            { perfStep f (tokenStep f st) with
              pending := dictInsert (perfStep f (tokenStep f st)).pending (toolIdOf s)
                { tool_id := toolIdOf s } } := by
          unfold invokeStep
          rw [if_pos hn]
          simp only [hm]
        have heq : processLine (JVal.jobj f) st = Except.ok (callStep f
            { perfStep f (tokenStep f st) with
              pending := dictInsert (perfStep f (tokenStep f st)).pending (toolIdOf s)
                { tool_id := toolIdOf s } }) := by
          simp only [processLine, hi]
        exact ⟨_, heq⟩
      | jnull => simp [goodLine, hn, hm] at hg
      | jbool b => simp [goodLine, hn, hm] at hg
      | jnum m e => simp [goodLine, hn, hm] at hg
      | jarr l => simp [goodLine, hn, hm] at hg
      | jobj o => simp [goodLine, hn, hm] at hg
    · have hi : invokeStep f (perfStep f (tokenStep f st)) =
          Except.ok (perfStep f (tokenStep f st)) := by
        unfold invokeStep
        rw [if_neg hn]
      have heq : processLine (JVal.jobj f) st =
          Except.ok (callStep f (perfStep f (tokenStep f st))) := by
        simp only [processLine, hi]
      exact ⟨_, heq⟩
  | jnull => simp [goodLine] at hg
  | jbool b => simp [goodLine] at hg
  | jnum m e => simp [goodLine] at hg
  | jstr s => simp [goodLine] at hg
  | jarr l => simp [goodLine] at hg

theorem invokeStep_ok_token_usage {f : List (String × JVal)}
    {st st' : ParseState} (h : invokeStep f st = Except.ok st') :
    st'.token_usage = st.token_usage := by
  rcases invokeStep_cases f st with ⟨hn, s, hm, hi⟩ | ⟨hn, hi⟩ | hi <;>
    rw [hi] at h <;> first
    | (injection h with h2
       rw [← h2])
    | exact Except.noConfusion h

theorem processLine_ok_token_usage {j : JVal} {st st' : ParseState}
    (h : processLine j st = Except.ok st') :
    st'.token_usage = (tokenOfLine (some j)).getD st.token_usage := by
  cases j with
  | jobj f =>
    cases hi : invokeStep f (perfStep f (tokenStep f st)) with
    | error st3 =>
      rw [show processLine (JVal.jobj f) st = Except.error st3 by
        simp only [processLine, hi]] at h
      exact Except.noConfusion h
    | ok st3 =>
      rw [show processLine (JVal.jobj f) st = Except.ok (callStep f st3) by
        simp only [processLine, hi]] at h
      injection h with h2
      rw [← h2, callStep_token_usage, invokeStep_ok_token_usage hi,
        perfStep_token_usage, tokenStep_token_usage]
  | jnull => exact Except.noConfusion h
  | jbool b => exact Except.noConfusion h
  | jnum m e => exact Except.noConfusion h
  | jstr s => exact Except.noConfusion h
  | jarr l => exact Except.noConfusion h

theorem scan_token_usage (l : List (Option JVal)) (st : ParseState)
    (hg : l.all goodLine = true) :
    (scan l st).token_usage = (l.filterMap tokenOfLine).getLastD st.token_usage := by
  induction l generalizing st with
  | nil => rfl
  | cons o rest ih =>
    rw [List.all_cons, Bool.and_eq_true] at hg
    cases o with
    | none =>
      simp only [scan, List.filterMap_cons]
      exact ih st hg.2
    | some j =>
      rcases goodLine_ok hg.1 st with ⟨st', hok⟩
      simp only [scan, hok]
      rw [ih st' hg.2]
      have htok := processLine_ok_token_usage hok
      cases ht : tokenOfLine (some j) with
      | none =>
        rw [ht] at htok
        simp only [List.filterMap_cons, ht, htok, Option.getD_none]
      | some t =>
        rw [ht] at htok
        simp only [List.filterMap_cons, ht, htok, Option.getD_some,
          List.getLastD_cons]

/-! ### Claim theorems -/

theorem lineSkips_extractLine {j : JVal} (h : lineSkips (some j) = true) :
    extractLine j = ELine.next := by
  simp only [lineSkips] at h
  revert h
  cases extractLine j with
  | found v =>
    intro h
    exact Bool.noConfusion h
  | next =>
    intro h
    rfl
  | halt =>
    intro h
    exact Bool.noConfusion h

/-- C5: on inputs whose decodable lines are JSON objects (so that no line
raises past the inner handler), the returned token_usage is empty when no
line carries both counter keys, and otherwise is exactly the two-key dict
of the last such line in file order — earlier occurrences are fully
overwritten. -/
theorem C5_token_usage_last (lines : List String)
    (hg : ((lines.map decodeLine).all goodLine) = true) :
    (parse_amp_debug_logs (some lines)).token_usage =
      lastTokenUsage (lines.map decodeLine) := by
  have h := scan_token_usage (lines.map decodeLine) initState hg
  simp only [parse_amp_debug_logs, flushState, lastTokenUsage]
  exact h

/-- Witness for C5: two token lines; the later line wins. -/
theorem C5_token_usage_last_witness :
    ((["\x7b\"input_tokens\":1,\"output_tokens\":2\x7d",
       "\x7b\"input_tokens\":30,\"output_tokens\":40\x7d"].map decodeLine).all
        goodLine) = true ∧
    (parse_amp_debug_logs (some
      ["\x7b\"input_tokens\":1,\"output_tokens\":2\x7d",
       "\x7b\"input_tokens\":30,\"output_tokens\":40\x7d"])).token_usage =
      lastTokenUsage ((["\x7b\"input_tokens\":1,\"output_tokens\":2\x7d",
       "\x7b\"input_tokens\":30,\"output_tokens\":40\x7d"]).map decodeLine) :=
  ⟨by decide, C5_token_usage_last _ (by decide)⟩

/-- C6: `extract_thread_id` scans lines in order and returns immediately
on the first per-line match, so a `threadId` key on the first matching
line wins over anything on later lines (the trailing lines are arbitrary);
within a single line, `threadId` is checked before `thread_id`, and
`thread_id` before the message pattern. -/
theorem C6_thread_id_priority :
    (∀ (pre post : List (Option JVal)) (f : List (String × JVal)) (v : JVal),
        pre.all lineSkips = true → dictLookup f "threadId" = some v →
        extractScan (pre ++ some (JVal.jobj f) :: post) = some v)
    ∧ (∀ (f : List (String × JVal)) (v w : JVal),
        dictLookup f "threadId" = some v → dictLookup f "thread_id" = some w →
        extractLine (JVal.jobj f) = ELine.found v)
    ∧ (∀ (f : List (String × JVal)) (w : JVal),
        dictLookup f "threadId" = none → dictLookup f "thread_id" = some w →
        extractLine (JVal.jobj f) = ELine.found w) := by
  refine ⟨?_, ?_, ?_⟩
  · intro pre post f v hpre hv
    induction pre with
    | nil =>
      simp only [List.nil_append, extractScan]
      simp only [extractLine, hv]
    | cons o rest ih =>
      rw [List.all_cons, Bool.and_eq_true] at hpre
      cases o with
      | none =>
        simp only [List.cons_append, extractScan]
        exact ih hpre.2
      | some j =>
        have hnext : extractLine j = ELine.next := lineSkips_extractLine hpre.1
        simp only [List.cons_append, extractScan, hnext]
        exact ih hpre.2
  · intro f v w hv hw
    simp only [extractLine, hv]
  · intro f w hn hw
    simp only [extractLine, hn, hw]

/-- Witness for C6: a skipped line, then a line carrying `threadId`
together with a conflicting `thread_id`, then a later line with a
different `thread_id`; the first `threadId` value is returned. -/
theorem C6_thread_id_priority_witness :
    ([some (JVal.jobj [("level", JVal.jstr "info")])].all lineSkips = true) ∧
    extractScan ([some (JVal.jobj [("level", JVal.jstr "info")])] ++
        some (JVal.jobj [("threadId", JVal.jstr "T-1"), ("thread_id", JVal.jstr "T-2")]) ::
        [some (JVal.jobj [("thread_id", JVal.jstr "T-3")])]) = some (JVal.jstr "T-1") ∧
    extractLine (JVal.jobj [("threadId", JVal.jstr "T-1"), ("thread_id", JVal.jstr "T-2")]) =
      ELine.found (JVal.jstr "T-1") :=
  ⟨by decide,
   C6_thread_id_priority.1 _ _ _ _ (by decide) rfl,
   C6_thread_id_priority.2.1 _ (JVal.jstr "T-1") (JVal.jstr "T-2") rfl rfl⟩

theorem callStep_fails {f : List (String × JVal)} {st : ParseState}
    (hfail : callFails f st.pending = true) : callStep f st = st := by
  unfold callStep
  by_cases h1 : (isName f "toolCall" || isName f "toolCallCompleted") = true
  · rw [if_pos h1]
    unfold callFails at hfail
    cases hm : dictLookup f "message" with
    | none => simp only [hm]
    | some mv =>
      cases mv with
      | jstr m =>
        simp only [hm] at hfail
        simp only [hm]
        cases hj : json_loads m with
        | none => simp only [hj]
        | some jv =>
          cases jv with
          | jobj p =>
            simp only [hj] at hfail
            simp only [hj]
            by_cases ht : truthy (payloadId p) = true
            · rw [if_pos ht]
              cases hid : payloadId p with
              | jstr s =>
                simp only [hid] at hfail
                rw [hid] at ht
                rw [ht] at hfail
                simp only [Bool.not_true, Bool.false_or] at hfail
                have hlook : dictLookup st.pending s = none :=
                  dictMember_false_lookup (by
                    cases hmm : dictMember st.pending s
                    · rfl
                    · rw [hmm] at hfail
                      cases hfail)
                simp only [hid, hlook]
              | jnull => simp only [hid]
              | jbool b => simp only [hid]
              | jnum m2 e2 => simp only [hid]
              | jarr l2 => simp only [hid]
              | jobj o2 => simp only [hid]
            · rw [if_neg ht]
          | jnull => simp only [hj]
          | jbool b => simp only [hj]
          | jnum m2 e2 => simp only [hj]
          | jstr s2 => simp only [hj]
          | jarr l2 => simp only [hj]
      | jnull => simp only [hm]
      | jbool b => simp only [hm]
      | jnum m2 e2 => simp only [hm]
      | jarr l2 => simp only [hm]
      | jobj o2 => simp only [hm]
  · rw [if_neg h1]

/-- C7: a toolCall / toolCallCompleted line whose message is absent, is
not a string, fails to decode as JSON, does not decode to an object, or
whose selected id is falsy or not a pending key, leaves the tool-call
state entirely unchanged: the line is processed without an escaping
exception, nothing is appended to the output, and the pending map is
untouched. -/
theorem C7_failed_call_noop (f : List (String × JVal)) (st : ParseState)
    (hname : isName f "toolCall" = true ∨ isName f "toolCallCompleted" = true)
    (hfail : callFails f st.pending = true) :
    ∃ st', processLine (JVal.jobj f) st = Except.ok st' ∧
      st'.tool_calls = st.tool_calls ∧ st'.pending = st.pending := by
  have hninv : isName f "invokeTool" = false := by
    rcases hname with h | h
    · exact isName_unique h (by decide)
    · exact isName_unique h (by decide)
  have hi : invokeStep f (perfStep f (tokenStep f st)) =
      Except.ok (perfStep f (tokenStep f st)) := by
    unfold invokeStep
    rw [if_neg (by simp [hninv])]
  have hfail2 : callFails f (perfStep f (tokenStep f st)).pending = true := by
    rw [perfStep_pending, tokenStep_pending]
    exact hfail
  refine ⟨perfStep f (tokenStep f st), ?_, ?_, ?_⟩
  · simp only [processLine, hi, callStep_fails hfail2]
  · rw [perfStep_tool_calls, tokenStep_tool_calls]
  · rw [perfStep_pending, tokenStep_pending]

/-- Call event of the C7 witness: its message is not valid JSON. -/
def c7wF : List (String × JVal) :=
  [("name", JVal.jstr "toolCallCompleted"), ("message", JVal.jstr "not json")]

/-- Start state of the C7 witness: one pending entry. -/
def c7wSt : ParseState :=
  { tool_calls := [{ tool_id := "z",
                     name := some JVal.jnull,
                     arguments := some JVal.jnull }],
    token_usage := [], perf := [],
    pending := [("b", { tool_id := "b" })] }

/-- Witness for C7: a completed-call event with an undecodable message
leaves output and pending untouched. -/
theorem C7_failed_call_noop_witness :
    (isName c7wF "toolCall" = true ∨ isName c7wF "toolCallCompleted" = true) ∧
    callFails c7wF c7wSt.pending = true ∧
    (∃ st', processLine (JVal.jobj c7wF) c7wSt = Except.ok st' ∧
      st'.tool_calls = c7wSt.tool_calls ∧ st'.pending = c7wSt.pending) :=
  ⟨Or.inr rfl, by decide,
   C7_failed_call_noop c7wF c7wSt (Or.inr rfl) (by decide)⟩

/-- C8: an unopenable log file produces the default result — empty
tool_calls, token_usage and perf for the parser, and no thread id for the
extractor — and an empty file produces the same defaults. -/
theorem C8_unopenable_and_empty_defaults :
    parse_amp_debug_logs none =
        { tool_calls := [], token_usage := [], perf := [] } ∧
    extract_thread_id none = none ∧
    parse_amp_debug_logs (some []) =
        { tool_calls := [], token_usage := [], perf := [] } ∧
    extract_thread_id (some []) = none :=
  ⟨rfl, rfl, rfl, rfl⟩

/-- C9: the two copies of the parser and of the thread-id extractor, one
per source file, are extensionally equal on every input file. -/
theorem C9_duplicate_copies_equal :
    (∀ file : Option (List String),
        parse_amp_debug_logs file = Dup.parse_amp_debug_logs file)
    ∧ (∀ file : Option (List String),
        extract_thread_id file = Dup.extract_thread_id file) := by
  constructor
  · intro file
    cases file with
    | none => rfl
    | some lines =>
      have hscan : ∀ (l : List (Option JVal)) (st : ParseState),
          scan l st = Dup.scan l st := by
        intro l
        induction l with
        | nil =>
          intro st
          rfl
        | cons o rest ih =>
          intro st
          cases o with
          | none => exact ih st
          | some j =>
            simp only [scan, Dup.scan]
            rw [show Dup.processLine j st = processLine j st from rfl]
            cases processLine j st with
            | ok st' => exact ih st'
            | error st' => rfl
      simp only [parse_amp_debug_logs, Dup.parse_amp_debug_logs, hscan]
  · intro file
    cases file with
    | none => rfl
    | some lines =>
      have hscan : ∀ l : List (Option JVal),
          extractScan l = Dup.extractScan l := by
        intro l
        induction l with
        | nil => rfl
        | cons o rest ih =>
          cases o with
          | none => exact ih
          | some j =>
            simp only [extractScan, Dup.extractScan]
            rw [show Dup.extractLine j = extractLine j from rfl]
            cases extractLine j with
            | found v => rfl
            | next => exact ih
            | halt => rfl
      simp only [extract_thread_id, Dup.extract_thread_id, hscan]

theorem extractScan_append_skips (pre l : List (Option JVal))
    (hpre : pre.all lineSkips = true) :
    extractScan (pre ++ l) = extractScan l := by
  induction pre with
  | nil => rfl
  | cons o rest ih =>
    rw [List.all_cons, Bool.and_eq_true] at hpre
    cases o with
    | none =>
      simp only [List.cons_append, extractScan]
      exact ih hpre.2
    | some j =>
      have hnext := lineSkips_extractLine hpre.1
      simp only [List.cons_append, extractScan, hnext]
      exact ih hpre.2

theorem scan_append_good (pre l : List (Option JVal)) (st : ParseState)
    (hg : pre.all goodLine = true) :
    scan (pre ++ l) st = scan l (scan pre st) := by
  induction pre generalizing st with
  | nil => rfl
  | cons o rest ih =>
    rw [List.all_cons, Bool.and_eq_true] at hg
    cases o with
    | none =>
      simp only [List.cons_append, scan]
      exact ih st hg.2
    | some j =>
      rcases goodLine_ok hg.1 st with ⟨st', hok⟩
      simp only [List.cons_append, scan, hok]
      exact ih st' hg.2

theorem processLine_nonobj {j : JVal} (st : ParseState) (h : isObj j = false) :
    processLine j st = Except.error st := by
  cases j with
  | jobj f => exact Bool.noConfusion h
  | jnull => rfl
  | jbool b => rfl
  | jnum m e => rfl
  | jstr s => rfl
  | jarr l => rfl

theorem extractLine_nonobj {j : JVal} (h : isObj j = false) :
    extractLine j = ELine.halt := by
  cases j with
  | jobj f => exact Bool.noConfusion h
  | jnull => rfl
  | jbool b => rfl
  | jnum m e => rfl
  | jstr s => rfl
  | jarr l => rfl

/-- C10: a line that is valid JSON but not an object raises past the
inner decode handler (`"k" in j` / attribute access on a non-dict): the
parser stops at that line and returns only what earlier lines
accumulated, with the pending map still flushed; the extractor abandons
the scan and returns `None` even when a later line carries `threadId`. -/
theorem C10_nonobject_line_aborts (lines : List String)
    (pre post : List (Option JVal)) (j : JVal)
    (hsplit : lines.map decodeLine = pre ++ some j :: post)
    (hobj : isObj j = false) :
    (pre.all goodLine = true →
        parse_amp_debug_logs (some lines) = flushState (scan pre initState))
    ∧ (pre.all lineSkips = true → extract_thread_id (some lines) = none) := by
  constructor
  · intro hg
    simp only [parse_amp_debug_logs, hsplit]
    rw [scan_append_good pre _ initState hg]
    simp only [scan, processLine_nonobj _ hobj]
  · intro hs
    simp only [extract_thread_id, hsplit]
    rw [extractScan_append_skips pre _ hs]
    simp only [extractScan, extractLine_nonobj hobj]

/-- Input of the C10 witness: an invoke line, a bare-number line, then a
line carrying a thread id that is never reached. -/
def c10File : List String :=
  ["\x7b\"name\":\"invokeTool\",\"message\":\"b, invoking\"\x7d", "7",
   "\x7b\"threadId\":\"t\"\x7d"]

/-- Decoded prefix of `c10File` before the aborting line. -/
def c10Pre : List (Option JVal) :=
  [some (JVal.jobj
    [("name", JVal.jstr "invokeTool"), ("message", JVal.jstr "b, invoking")])]

/-- Decoded suffix of `c10File` after the aborting line. -/
def c10Post : List (Option JVal) :=
  [some (JVal.jobj [("threadId", JVal.jstr "t")])]

/-- Witness for C10 on `c10File`: the run stops at the bare number 7, the
pending invoke is still flushed, and the extractor returns none despite
the later `threadId` line. -/
theorem C10_nonobject_line_aborts_witness :
    c10File.map decodeLine = c10Pre ++ some (JVal.jnum 7 0) :: c10Post ∧
    isObj (JVal.jnum 7 0) = false ∧
    parse_amp_debug_logs (some c10File) = flushState (scan c10Pre initState) ∧
    extract_thread_id (some c10File) = none :=
  ⟨rfl, rfl,
   (C10_nonobject_line_aborts c10File c10Pre c10Post (JVal.jnum 7 0)
     rfl rfl).1 (by decide),
   (C10_nonobject_line_aborts c10File c10Pre c10Post (JVal.jnum 7 0)
     rfl rfl).2 (by decide)⟩

/-- C1: for every input file, the length of the `tool_calls` list returned
by `parse_amp_debug_logs` equals the number of invoke entries matched by a
later call/completion event during the run plus the number of pending
entries still unmatched at the end of the stream; an invoke event whose
tool id overwrites a still-pending entry contributes a single entry, since
the ghost key set records it once. -/
theorem C1_tool_calls_length (lines : List String) :
    ((parse_amp_debug_logs (some lines)).tool_calls).length =
      matchedCount lines + unmatchedCount lines := by
  have h := ghostScan_sim (lines.map decodeLine) initState
  have habs : absG initState = ([], 0) := rfl
  rw [habs] at h
  simp only [parse_amp_debug_logs, flushState, matchedCount, unmatchedCount,
    h, absG, pKeys]
  simp [List.length_append]

/-- C3 (amended): in the call step, the id used for correlation is the
payload's `toolId` value whenever that value is truthy; the `id` value is
used when `toolId` is absent (Python `or` also falls back when `toolId`
is present but falsy, which is what refutes the claim as stated).  When
the selected id is a nonempty string with a pending entry, exactly that
entry is matched, enriched with the payload's `name` (default "unknown")
and `arguments` (default empty object), and moved to the output. -/
theorem C3_call_id_selection (f : List (String × JVal)) (st : ParseState)
    (m : String) (p : List (String × JVal)) (s : String) (r : ToolRec)
    (hname : isName f "toolCall" = true ∨ isName f "toolCallCompleted" = true)
    (hm : dictLookup f "message" = some (JVal.jstr m))
    (hp : json_loads m = some (JVal.jobj p))
    (hid : (truthy (pyGet p "toolId") = true ∧ pyGet p "toolId" = JVal.jstr s)
         ∨ (dictMember p "toolId" = false ∧ pyGet p "id" = JVal.jstr s))
    (hs : s ≠ "")
    (hr : dictLookup st.pending s = some r) :
    callStep f st =
      { st with
          pending := dictRemove st.pending s,
          tool_calls := st.tool_calls ++
            [{ r with
                name := some ((dictLookup p "name").getD (JVal.jstr "unknown")),
                arguments := some ((dictLookup p "arguments").getD (JVal.jobj [])) }] } := by
  have hpid : payloadId p = JVal.jstr s := by
    unfold payloadId
    rcases hid with ⟨ht, hv⟩ | ⟨hmem, hv⟩
    · rw [if_pos ht, hv]
    · have hnull : pyGet p "toolId" = JVal.jnull := by
        unfold pyGet
        rw [dictMember_false_lookup hmem]
        rfl
      rw [hnull]
      simp only [truthy, Bool.false_eq_true, if_false]
      exact hv
  have htr : truthy (payloadId p) = true := by
    rw [hpid]
    simpa [truthy] using hs
  have hcond : (isName f "toolCall" || isName f "toolCallCompleted") = true := by
    rcases hname with h | h <;> simp [h]
  unfold callStep
  rw [if_pos hcond]
  simp only [hm, hp, if_pos htr, hpid, hr]
  rw [if_pos (hpid ▸ htr)]

/-- The nested payload that refutes the claim: it contains a `toolId` key
(with a falsy value) together with an `id` key. -/
def c3Payload : List (String × JVal) :=
  [("toolId", JVal.jstr ""), ("id", JVal.jstr "x"), ("name", JVal.jstr "Read")]

/-- Log lines whose call event carries `c3Payload` as its message. -/
def c3File : List String :=
  ["\x7b\"name\":\"invokeTool\",\"message\":\"x, invoking\"\x7d",
   "\x7b\"name\":\"toolCall\",\"message\":\"\x7b\\\"toolId\\\":\\\"\\\",\\\"id\\\":\\\"x\\\",\\\"name\\\":\\\"Read\\\"\x7d\"\x7d"]

/-- C3 counterexample: `c3Payload` contains both a `toolId` and an `id`
key, yet the id the parser looks up is "x" — the `id` value — because the
present `toolId` value "" is falsy; on `c3File` the pending entry "x" is
indeed matched and enriched, which the claim as stated forbids. -/
theorem C3_counterexample :
    dictMember c3Payload "toolId" = true ∧
    dictMember c3Payload "id" = true ∧
    pyGet c3Payload "toolId" = JVal.jstr "" ∧
    payloadId c3Payload = JVal.jstr "x" ∧
    (parse_amp_debug_logs (some c3File)).tool_calls =
      [{ tool_id := "x", name := some (JVal.jstr "Read"),
         arguments := some (JVal.jobj []) }] :=
  ⟨rfl, rfl, rfl, rfl, rfl⟩

/-- Event dict of the C3 witness: a toolCall whose message payload has a
truthy toolId. -/
def c3wF : List (String × JVal) :=
  [("name", JVal.jstr "toolCall"),
   ("message", JVal.jstr "\x7b\"toolId\":\"a\"\x7d")]

/-- Start state of the C3 witness: one pending entry "a". -/
def c3wSt : ParseState :=
  { tool_calls := [], token_usage := [], perf := [],
    pending := [("a", { tool_id := "a" })] }

/-- Witness for C3 at concrete data: on a call event whose payload has the
truthy toolId "a", exactly the pending entry "a" is matched and moved to
the output with the defaulted name and arguments. -/
theorem C3_call_id_selection_witness :
    (isName c3wF "toolCall" = true ∨ isName c3wF "toolCallCompleted" = true) ∧
    callStep c3wF c3wSt =
      { c3wSt with
          pending := dictRemove c3wSt.pending "a",
          tool_calls := c3wSt.tool_calls ++
            [{ tool_id := "a", name := some (JVal.jstr "unknown"),
               arguments := some (JVal.jobj []) }] } := by
  constructor
  · left
    rfl
  · rw [C3_call_id_selection c3wF c3wSt "\x7b\"toolId\":\"a\"\x7d"
      [("toolId", JVal.jstr "a")] "a" { tool_id := "a" }
      (Or.inl rfl) rfl rfl (Or.inl ⟨rfl, rfl⟩) (by decide) rfl]
    rfl

/-- Input refuting the unconditional disjointness invariant: invoke of id
"a", its completion, then a second invoke re-using "a". -/
def c2File : List String :=
  ["\x7b\"name\":\"invokeTool\",\"message\":\"a, invoking\"\x7d",
   "\x7b\"name\":\"toolCall\",\"message\":\"\x7b\\\"toolId\\\":\\\"a\\\"\x7d\"\x7d",
   "\x7b\"name\":\"invokeTool\",\"message\":\"a, again\"\x7d"]

/-- C2 counterexample: on `c2File` the parser passes through a state whose
pending map and output list both contain tool id "a" — after the third
line re-invokes an id already matched and moved to the output — so the
disjointness invariant fails on this run, before the end-of-stream
flush. -/
theorem C2_counterexample :
    ((scanStates (c2File.map decodeLine) initState).all disjB) = false := by
  decide

/-- C2 (amended): the pending map and the output tool-call list are
disjoint at every point of the run — a tool id is in at most one of them
until pending is drained at end of stream — for every input whose
invokeTool events carry pairwise distinct tool ids (the unrestricted
claim fails when an invoke re-uses an id that was already matched, as
`C2_counterexample` shows). -/
theorem C2_pending_output_disjoint (lines : List String)
    (hdist : (invokeIdsOf (lines.map decodeLine)).Nodup) :
    ((scanStates (lines.map decodeLine) initState).all disjB) = true := by
  rw [List.all_eq_true]
  intro x hx
  refine traj_disj (lines.map decodeLine) initState ?_ ?_ ?_ x hx
  · simpa [pKeys, oKeys, initState] using hdist
  · intro e he
    exact absurd he (List.not_mem_nil e)
  · intro r hr
    exact absurd hr (List.not_mem_nil r)

/-- Witness for C2 on a benign two-line file: distinct invoke ids, and
the whole trajectory keeps pending and output disjoint. -/
theorem C2_pending_output_disjoint_witness :
    (invokeIdsOf ((["\x7b\"name\":\"invokeTool\",\"message\":\"a, invoking\"\x7d",
        "\x7b\"name\":\"toolCall\",\"message\":\"\x7b\\\"toolId\\\":\\\"a\\\"\x7d\"\x7d"]).map decodeLine)).Nodup
    ∧ ((scanStates ((["\x7b\"name\":\"invokeTool\",\"message\":\"a, invoking\"\x7d",
        "\x7b\"name\":\"toolCall\",\"message\":\"\x7b\\\"toolId\\\":\\\"a\\\"\x7d\"\x7d"]).map decodeLine)
          initState).all disjB) = true :=
  ⟨by decide, C2_pending_output_disjoint _ (by decide)⟩

/-- C4: the returned `tool_calls` list is the matched records (in the
order their completion events were processed, as built by the call step)
followed by the still-pending records (in pending-map insertion order);
every matched record carries `name` and `arguments`, every unmatched
record is exactly the bare `\x7btool_id\x7d` dict. -/
theorem C4_output_order_shape (lines : List String) :
    (parse_amp_debug_logs (some lines)).tool_calls =
        (scan (lines.map decodeLine) initState).tool_calls ++
          (scan (lines.map decodeLine) initState).pending.map Prod.snd
    ∧ OutFull (scan (lines.map decodeLine) initState)
    ∧ PendPure (scan (lines.map decodeLine) initState) := by
  have hinit : PendPure initState ∧ OutFull initState := by
    constructor
    · intro e he
      exact absurd he (List.not_mem_nil e)
    · intro r hr
      exact absurd hr (List.not_mem_nil r)
  exact ⟨rfl, (scan_preserves _ _ hinit.1 hinit.2).2,
    (scan_preserves _ _ hinit.1 hinit.2).1⟩

